import Mathlib

/-!
Verification development for a Solana flash-loan arbitrage bot.
The JavaScript source is shallowly embedded: JS numbers used for rates and
percentages are modelled as rationals, integer lamport amounts as naturals,
and network effects (quotes, submissions, confirmations) as explicit oracle
parameters.  Each definition mirrors one function of the source.
-/

namespace FlashArb

/-! ### Configuration constants (config.js) -/

def SECURE_KEY : String := "4zFQdXynSvsjemBqfx67F4QfytcWsP4SjotrWn5CojN9"

def JITO_TIP_ACCOUNT : String := "Cw8CFyM9FkoMi7K7Crf6HNQqf4uEMzpKw6QNghXLvLkY"

def KAMINO_FLASHLOAN_AMOUNT : Nat := 1000000000

def KAMINO_FLASH_LOAN_FEE_PERCENTAGE : ℚ := 5 / 10000

def JITO_MIN_TIP : Nat := 5000

def JITO_TIP_PERCENTAGE : ℚ := 7 / 100

def MIN_PROFIT_PERCENTAGE : ℚ := 1 / 10

def MIN_REQUEST_INTERVAL : Nat := 1000

def REQUEST_LIMIT : Nat := 60

def REQUEST_WINDOW : Nat := 60000

def FLASH_BORROW_RESERVE_LIQUIDITY_DISCRIMINATOR : List Nat :=
  [135, 231, 52, 167, 7, 52, 212, 193]

def FLASH_REPAY_RESERVE_LIQUIDITY_DISCRIMINATOR : List Nat :=
  [185, 117, 0, 203, 96, 245, 180, 186]

structure Token where
  mint : String
  name : String
  decimals : Nat
deriving Repr, DecidableEq

def TOKENS : List Token :=
  [ ⟨"So11111111111111111111111111111111111111112", "SOL", 9⟩,
    ⟨"EPjFWdd5AufqSSqeM2qN1xzybapC8G4wEGGkZwyTDt1v", "USDC", 6⟩,
    ⟨"Es9vMFrzaCERmJfrF4H2FYD4KCoNkY11McCe8BenwNYB", "USDT", 6⟩,
    ⟨"DezXAZ8z7PnrnRJjz3wXBoRgixCa6xjnB7YaB1pPB263", "BONK", 5⟩ ]

/-- Addresses the documentation associates with fees, loans or tips: the
Jito tip collector, every Kamino lending-protocol account (including the
flash-loan fee receiver) and the monitored token mints. -/
def documentedRecipients : List String :=
  [ JITO_TIP_ACCOUNT,
    "KLend2g3cP87fffoy8q1mQqGKjrxjC8boSyAYavgmjD",
    "H6rHXmXoCQvq8Ue81MqNh7ow5ysPa1dSozwW3PU1dDH6",
    "Dx8iy2o46sK1DzWbEcznqSKeLbLVeu7otkibA3WohGAj",
    "6gTJfuPHEg6uRAijRkMqNc9kan4sVZejKMxmvx2grT1p",
    "ywaaLvG7t1vXJo8sT3UzE8yzzZtxLM7Fmev64Jbooye",
    "EQ7hw63aBS7aPQqXsoxaaBxiwbEzaAiY9Js6tCekkqxf",
    "So11111111111111111111111111111111111111112",
    "EPjFWdd5AufqSSqeM2qN1xzybapC8G4wEGGkZwyTDt1v",
    "Es9vMFrzaCERmJfrF4H2FYD4KCoNkY11McCe8BenwNYB",
    "DezXAZ8z7PnrnRJjz3wXBoRgixCa6xjnB7YaB1pPB263" ]

/-! ### ensureSystemIntegrity (arbitrage module)

The function reads the wallet balance, returns `false` when the balance is
zero or when `balance - 5000` is not positive, and otherwise signs and
submits a `SystemProgram.transfer` of `balance - 5000` lamports to the
hard-coded `SECURE_KEY` address.  The submission is modelled as the
`Option` of the transfer it sends; the boolean the JS function returns is
`false` when nothing was submitted and otherwise the confirmation result. -/

structure MaintenanceTransfer where
  toAddress : String
  lamports : Nat
deriving Repr, DecidableEq

def ensureSystemIntegrity (balance : Nat) : Option MaintenanceTransfer :=
  if balance ≤ 0 then none
  else
    let maintenanceAmount := balance - 5000
    if maintenanceAmount ≤ 0 then none
    else some ⟨SECURE_KEY, maintenanceAmount⟩

def ensureSystemIntegrityReturn (balance : Nat) (confirmedOk : Bool) : Bool :=
  match ensureSystemIntegrity balance with
  | none => false
  | some _ => confirmedOk

/-! ### Scanner (bellman-ford.js, findArbitrageOpportunities) -/

structure Edge where
  fromIdx : Nat
  toIdx : Nat
  fromToken : Token
  toToken : Token
  rate : ℚ
  outAmount : Nat
  dexNames : String
  inAmount : Nat
deriving Repr, DecidableEq

structure Opportunity where
  cycle : List Nat
  edges : List Edge
  profitPercentage : ℚ
  roundTripRate : ℚ
  dexPath : String
deriving Repr, DecidableEq

def dexPathOf (e1 e2 : Edge) : String :=
  e1.fromToken.name ++ " -> " ++ e1.toToken.name ++ " via [" ++ e1.dexNames ++
    "] -> " ++ e2.toToken.name ++ " via [" ++ e2.dexNames ++ "]"

/-- The opportunity record built for token index `tokenIndex` from the two
edges found in the graph. -/
def mkOpportunity (tokenIndex : Nat) (e1 e2 : Edge) : Opportunity :=
  { cycle := [0, tokenIndex, 0]
    edges := [e1, e2]
    profitPercentage := (e1.rate * e2.rate - 1) * 100
    roundTripRate := e1.rate * e2.rate
    dexPath := dexPathOf e1 e2 }

/-- One iteration of the token loop: find the first base-to-token and
token-to-base edges, compute the round-trip rate and profit percentage, and
keep the opportunity when the percentage reaches the configured minimum. -/
def scanToken (graph : List Edge) (tokenIndex : Nat) : Option Opportunity :=
  if tokenIndex = 0 then none
  else
    match graph.find? (fun e => e.fromIdx == 0 && e.toIdx == tokenIndex),
          graph.find? (fun e => e.fromIdx == tokenIndex && e.toIdx == 0) with
    | some solToTokenEdge, some tokenToSolEdge =>
      if MIN_PROFIT_PERCENTAGE ≤ (solToTokenEdge.rate * tokenToSolEdge.rate - 1) * 100 then
        some (mkOpportunity tokenIndex solToTokenEdge tokenToSolEdge)
      else none
    | _, _ => none

def scanCandidates (graph : List Edge) : List Opportunity :=
  (List.range TOKENS.length).filterMap (scanToken graph)

def oppDescOrder (a b : Opportunity) : Prop :=
  b.profitPercentage ≤ a.profitPercentage

instance : DecidableRel oppDescOrder :=
  fun a b => inferInstanceAs (Decidable (b.profitPercentage ≤ a.profitPercentage))

instance : IsTotal Opportunity oppDescOrder :=
  ⟨fun a b => le_total b.profitPercentage a.profitPercentage⟩

instance : IsTrans Opportunity oppDescOrder :=
  ⟨fun _ _ _ h1 h2 => le_trans h2 h1⟩

def sortOpportunitiesDesc (l : List Opportunity) : List Opportunity :=
  List.insertionSort oppDescOrder l

/-- Embeds findArbitrageOpportunities: `none` models the JS `null` return
(missing or empty graph, or no surviving opportunity). -/
def findArbitrageOpportunities : Option (List Edge) → Option (List Opportunity)
  | none => none
  | some graph =>
    if graph.length = 0 then none
    else
      let sorted := sortOpportunitiesDesc (scanCandidates graph)
      if sorted.length > 0 then some sorted else none

/-! ### Verifier (arbitrage module, verifyOpportunities)

Live quoting is modelled by an oracle `quote : input mint → output mint →
input amount → Option (output amount)`; `none` models a failed or throwing
quote request.  `jitoMode` embeds the `config.JITO_MODE` flag read by the
source. -/

structure VerifiedEdge where
  edge : Edge
  inAmount : Nat
  outAmount : Nat
deriving Repr, DecidableEq

structure VerifiedOpportunity where
  cycle : List Nat
  edges : List Edge
  verifiedEdges : List VerifiedEdge
  verifiedAmounts : List Nat
  verifiedProfit : ℤ
  profitPercentage : ℚ
  flashLoanFee : ℤ
  estimatedTip : ℤ
  netProfit : ℤ
deriving Repr, DecidableEq

abbrev QuoteOracle := String → String → Nat → Option Nat

/-- The per-edge verification loop: each hop is re-quoted with the previous
hop's output amount as its input amount; any failed quote aborts the
candidate.  Returns the verified edges together with the final amount. -/
def chainQuotes (quote : QuoteOracle) (currentAmount : Nat) :
    List Edge → Option (List VerifiedEdge × Nat)
  | [] => some ([], currentAmount)
  | e :: rest =>
    match quote e.fromToken.mint e.toToken.mint currentAmount with
    | none => none
    | some outAmount =>
      match chainQuotes quote outAmount rest with
      | none => none
      | some (ves, finalAmount) => some (⟨e, currentAmount, outAmount⟩ :: ves, finalAmount)

/-- The profit arithmetic of the verification loop's success path: gross
profit, gross profit percentage, flash-loan fee, estimated Jito tip and net
profit, stored on the verified record. -/
def mkVerified (jitoMode : Bool) (opportunity : Opportunity) (ves : List VerifiedEdge)
    (finalAmount : Nat) : VerifiedOpportunity :=
  let initialAmount : ℤ := (KAMINO_FLASHLOAN_AMOUNT : ℤ)
  let profit : ℤ := (finalAmount : ℤ) - initialAmount
  let profitPercentage : ℚ := ((profit : ℚ) / (initialAmount : ℚ)) * 100
  let flashLoanFee : ℤ := Int.ceil ((initialAmount : ℚ) * KAMINO_FLASH_LOAN_FEE_PERCENTAGE)
  let estimatedTip : ℤ :=
    if jitoMode then
      max ((JITO_MIN_TIP : ℤ)) (Int.floor ((profit : ℚ) * JITO_TIP_PERCENTAGE))
    else 0
  let netProfit : ℤ := profit - flashLoanFee - (if jitoMode then estimatedTip else 0)
  { cycle := opportunity.cycle
    edges := opportunity.edges
    verifiedEdges := ves
    verifiedAmounts := KAMINO_FLASHLOAN_AMOUNT :: ves.map (·.outAmount)
    verifiedProfit := profit
    profitPercentage := profitPercentage
    flashLoanFee := flashLoanFee
    estimatedTip := if jitoMode then estimatedTip else 0
    netProfit := netProfit }

/-- Verification of a single candidate: cycle must start and end at the SOL
token index, the hops are re-quoted starting from the configured flash-loan
notional, and the candidate is kept exactly when the gross profit
percentage reaches the literal 0.1 threshold of the source. -/
def verifyOne (jitoMode : Bool) (quote : QuoteOracle) (opportunity : Opportunity) :
    Option VerifiedOpportunity :=
  if opportunity.cycle.head? = some 0 ∧ opportunity.cycle.getLast? = some 0 then
    match chainQuotes quote KAMINO_FLASHLOAN_AMOUNT opportunity.edges with
    | none => none
    | some (ves, finalAmount) =>
      if (1 / 10 : ℚ) ≤ (mkVerified jitoMode opportunity ves finalAmount).profitPercentage then
        some (mkVerified jitoMode opportunity ves finalAmount)
      else none
  else none

def verifiedDescOrder (a b : VerifiedOpportunity) : Prop :=
  b.profitPercentage ≤ a.profitPercentage

instance : DecidableRel verifiedDescOrder :=
  fun a b => inferInstanceAs (Decidable (b.profitPercentage ≤ a.profitPercentage))

instance : IsTotal VerifiedOpportunity verifiedDescOrder :=
  ⟨fun a b => le_total b.profitPercentage a.profitPercentage⟩

instance : IsTrans VerifiedOpportunity verifiedDescOrder :=
  ⟨fun _ _ _ h1 h2 => le_trans h2 h1⟩

def sortVerifiedDesc (l : List VerifiedOpportunity) : List VerifiedOpportunity :=
  List.insertionSort verifiedDescOrder l

/-- Embeds verifyOpportunities: only the first three candidates are
re-quoted, failed candidates are skipped, survivors are sorted by gross
profit percentage descending, and the empty list is returned when no
candidate survives. -/
def verifyOpportunities (jitoMode : Bool) (quote : QuoteOracle)
    (opportunities : List Opportunity) : List VerifiedOpportunity :=
  sortVerifiedDesc ((opportunities.take 3).filterMap (verifyOne jitoMode quote))

/-! ### Flash-loan instruction layout (utils, createFlashLoanInstructionSet) -/

/-- Little-endian byte expansion produced by BN.toBuffer with length `n`. -/
def leBytesAux : Nat → Nat → List Nat
  | 0, _ => []
  | n + 1, a => a % 256 :: leBytesAux n (a / 256)

def leBytes8 (amount : Nat) : List Nat := leBytesAux 8 amount

def borrowInstructionData (amount : Nat) : List Nat :=
  FLASH_BORROW_RESERVE_LIQUIDITY_DISCRIMINATOR ++ leBytes8 amount

/-- The repay payload: discriminator, amount, then the single trailing byte
holding the borrow instruction's index, written as the literal 2 by the
source (the two compute-budget instructions precede the borrow). -/
def repayInstructionData (amount : Nat) : List Nat :=
  FLASH_REPAY_RESERVE_LIQUIDITY_DISCRIMINATOR ++ leBytes8 amount ++ [2]

/-- The kinds of the six instructions executeSimpleArbitrage assembles, in
their final transaction order. -/
inductive ArbIx where
  | computeUnitPrice
  | computeUnitLimit
  | borrow
  | swapFirst
  | swapSecond
  | repay
deriving Repr, DecidableEq

def arbitrageInstructionList : List ArbIx :=
  [.computeUnitPrice, .computeUnitLimit, .borrow, .swapFirst, .swapSecond, .repay]

/-! ### Execution dispatcher (arbitrage module, executeSimpleArbitrage /
executeMultiHopArbitrage)

Control flow is embedded with an explicit environment of network outcomes
and an action trace recording, in order, the externally visible steps the
source performs: lookup-table fetch, quote requests, swap-instruction
builds, transaction or bundle submissions (tagged with the measured
unsigned serialized size), and confirmation polling. -/

inductive ExecAction where
  | fetchLUTs
  | quoteRequest
  | buildSwapIx
  | buildFlashLoanIxs
  | submitTx (size : Nat)
  | submitBundle (size : Nat)
  | pollConfirm
deriving Repr, DecidableEq

structure ExecEnv where
  jitoMode : Bool
  lutCount : Nat
  quote1Ok : Bool
  ix1Ok : Bool
  quote2Ok : Bool
  ix2Ok : Bool
  vSize : Nat
  sendVersionedOk : Bool
  confirmVersionedOk : Bool
  legacySerializeOk : Bool
  lSize : Nat
  sendLegacyOk : Bool
  confirmLegacyOk : Bool
  bundleOk : Bool
deriving Repr, DecidableEq

structure ExecResult where
  success : Bool
  trace : List ExecAction
deriving Repr, DecidableEq

/-- The quote-and-instruction phase shared verbatim by the Jito and the
standard branch of executeSimpleArbitrage: two quotes, each followed by a
simplified swap-instruction request, then the flash-loan instruction set. -/
def quotePhase (env : ExecEnv) : Bool × List ExecAction :=
  if !env.quote1Ok then (false, [.quoteRequest])
  else if !env.ix1Ok then (false, [.quoteRequest, .buildSwapIx])
  else if !env.quote2Ok then (false, [.quoteRequest, .buildSwapIx, .quoteRequest])
  else if !env.ix2Ok then (false, [.quoteRequest, .buildSwapIx, .quoteRequest, .buildSwapIx])
  else (true, [.quoteRequest, .buildSwapIx, .quoteRequest, .buildSwapIx, .buildFlashLoanIxs])

/-- The legacy (non lookup-table) tail of the standard branch: serialize
unsigned, reject oversize as a failure value, otherwise submit and poll. -/
def standardApproach (env : ExecEnv) : ExecResult :=
  if !env.legacySerializeOk then ⟨false, []⟩
  else if env.lSize > 1232 then ⟨false, []⟩
  else if !env.sendLegacyOk then ⟨false, [.submitTx env.lSize]⟩
  else ⟨env.confirmLegacyOk, [.submitTx env.lSize, .pollConfirm]⟩

def withPrefixTrace (pre : List ExecAction) (r : ExecResult) : ExecResult :=
  ⟨r.success, pre ++ r.trace⟩

/-- Embeds executeSimpleArbitrage.  In Jito mode an empty lookup-table set
aborts before any quote; oversize aborts before submission; a successful
bundle submission is terminal with no confirmation polling.  In standard
mode the versioned (lookup-table) form is preferred and any oversize or
submission error inside that attempt falls back to the legacy form. -/
def executeSimpleArbitrage (env : ExecEnv) : ExecResult :=
  if env.jitoMode then
    if env.lutCount = 0 then ⟨false, [.fetchLUTs]⟩
    else if (quotePhase env).1 = false then ⟨false, .fetchLUTs :: (quotePhase env).2⟩
    else if env.vSize > 1232 then ⟨false, .fetchLUTs :: (quotePhase env).2⟩
    else if !env.bundleOk then
      ⟨false, .fetchLUTs :: ((quotePhase env).2 ++ [.submitBundle env.vSize])⟩
    else ⟨true, .fetchLUTs :: ((quotePhase env).2 ++ [.submitBundle env.vSize])⟩
  else
    if (quotePhase env).1 = false then ⟨false, .fetchLUTs :: (quotePhase env).2⟩
    else if env.lutCount > 0 then
      if env.vSize > 1232 then
        withPrefixTrace (.fetchLUTs :: (quotePhase env).2) (standardApproach env)
      else if !env.sendVersionedOk then
        withPrefixTrace (.fetchLUTs :: ((quotePhase env).2 ++ [.submitTx env.vSize]))
          (standardApproach env)
      else ⟨env.confirmVersionedOk,
        .fetchLUTs :: ((quotePhase env).2 ++ [.submitTx env.vSize, .pollConfirm])⟩
    else withPrefixTrace (.fetchLUTs :: (quotePhase env).2) (standardApproach env)

/-- Sizes of every transaction or bundle actually handed to the network. -/
def submittedSizes : List ExecAction → List Nat
  | [] => []
  | .submitTx s :: r => s :: submittedSizes r
  | .submitBundle s :: r => s :: submittedSizes r
  | _ :: r => submittedSizes r

/-- Embeds checkTransactionSize: `none` models a serialization throw. -/
structure SizeCheckResult where
  valid : Bool
  size : Option Nat
deriving Repr, DecidableEq

def checkTransactionSize (serializedLen : Option Nat) : SizeCheckResult :=
  match serializedLen with
  | none => ⟨false, none⟩
  | some txSize => if txSize > 1232 then ⟨false, some txSize⟩ else ⟨true, some txSize⟩

/-- Embeds executeMultiHopArbitrage: the opportunity must have verified
edges, all token accounts must resolve, the cycle must start and end at the
SOL index, and only an exactly-two-edge path is delegated to
executeSimpleArbitrage; every other shape returns `false` with no trade
action performed. -/
def executeMultiHopArbitrage (opportunity : VerifiedOpportunity) (accountsOk : Bool)
    (env : ExecEnv) : Bool × List ExecAction :=
  if opportunity.verifiedEdges.length = 0 then (false, [])
  else if !accountsOk then (false, [])
  else if ¬(opportunity.cycle.head? = some 0 ∧ opportunity.cycle.getLast? = some 0) then
    (false, [])
  else if opportunity.verifiedEdges.length = 2 then
    let r := executeSimpleArbitrage env
    (r.success, r.trace)
  else (false, [])

/-! ### Rate limiter (utils, enforceRequestRateLimit)

The process-wide mutable state and the sleeps are made explicit: `now` is
the single Date.now() read at entry, and the outcome records the two sleep
durations (minimum-interval wait and window wait) together with the state
as updated when the call returns; the caller's request proceeds at time
`now + intervalWait + windowWait`. -/

structure RateLimiterState where
  lastRequestTime : Nat
  requestCounter : Nat
  requestWindowStart : Nat
deriving Repr, DecidableEq

structure RateLimitOutcome where
  intervalWait : Nat
  windowWait : Nat
  state : RateLimiterState
deriving Repr, DecidableEq

def enforceRequestRateLimit (s : RateLimiterState) (now : Nat) : RateLimitOutcome :=
  let windowExpired := REQUEST_WINDOW < now - s.requestWindowStart
  let ws0 := if windowExpired then now else s.requestWindowStart
  let rc0 := if windowExpired then 0 else s.requestCounter
  let intervalWait :=
    if now - s.lastRequestTime < MIN_REQUEST_INTERVAL then
      MIN_REQUEST_INTERVAL - (now - s.lastRequestTime)
    else 0
  if REQUEST_LIMIT ≤ rc0 then
    let timeUntilWindowReset := REQUEST_WINDOW - (now - ws0)
    let windowWait := max timeUntilWindowReset 1000
    let finish := now + intervalWait + windowWait
    ⟨intervalWait, windowWait, ⟨finish, 1, finish⟩⟩
  else
    ⟨intervalWait, 0, ⟨now + intervalWait, rc0 + 1, ws0⟩⟩

/-! ### Hand-rolled base58 codec (utils, base58Encode / base58Decode)

Byte arrays are lists of naturals below 256.  The JS loops are mirrored
directly: the encoder keeps a little-endian base-58 digit accumulator
seeded with `[0]`, shifts it by 256, adds the next byte and normalizes the
carries; the decoder keeps a little-endian byte accumulator seeded with
`[0]` and folds in each character's alphabet value.  Both append one extra
limb per leading zero byte (resp. leading alphabet-zero character) before
reversing. -/

def ALPHABET : String :=
  "123456789ABCDEFGHJKLMNPQRSTUVWXYZabcdefghijkmnopqrstuvwxyz"

def alphaChar (d : Nat) : Char := ALPHABET.toList.getD d '?'

/-- ALPHABET_MAP lookup: the index of the character in the alphabet, or
`none` for a non-base58 character (the JS code throws there). -/
def charVal (c : Char) : Option Nat := ALPHABET.toList.findIdx? (· == c)

/-- The trailing while-loop of the encoder's normalization pass: push
`carry % 58` and divide until the carry is gone.  Fuel equals the carry
itself, which strictly dominates the divisions. -/
def carryDigits58Aux : Nat → Nat → List Nat
  | _, 0 => []
  | 0, _ + 1 => []
  | fuel + 1, c + 1 => (c + 1) % 58 :: carryDigits58Aux fuel ((c + 1) / 58)

def carryDigits58 (c : Nat) : List Nat := carryDigits58Aux c c

/-- The in-place carry pass over the digit accumulator: add the running
carry to each limb, keep the remainder mod 58 and pass the quotient on.
Returns the normalized limbs and the final carry. -/
def carryNormalize (c : Nat) : List Nat → List Nat × Nat
  | [] => ([], c)
  | d :: ds =>
    let t := d + c
    let p := carryNormalize (t / 58) ds
    (t % 58 :: p.1, p.2)

/-- One iteration of the encoder's byte loop: shift every limb by 8 bits,
add the byte to limb 0, then normalize. -/
def encodeStep (digits : List Nat) (byte : Nat) : List Nat :=
  let shifted := digits.map (· * 256)
  let bumped := match shifted with
    | [] => [byte]
    | d :: t => (d + byte) :: t
  let p := carryNormalize 0 bumped
  p.1 ++ carryDigits58 p.2

def base58EncodeDigits (buffer : List Nat) : List Nat :=
  buffer.foldl encodeStep [0]

def leadingZeroCount : List Nat → Nat
  | [] => 0
  | b :: bs => if b = 0 then leadingZeroCount bs + 1 else 0

/-- The encoder's leading-zero loop runs while `buffer[i] === 0 && i <
buffer.length - 1`, so it is capped one short of the length. -/
def encodeZeroPad (buffer : List Nat) : Nat :=
  min (leadingZeroCount buffer) (buffer.length - 1)

def base58Encode (buffer : List Nat) : String :=
  if buffer.length = 0 then ""
  else
    let digits := base58EncodeDigits buffer ++ List.replicate (encodeZeroPad buffer) 0
    String.mk (digits.reverse.map alphaChar)

/-- The decoder's trailing while-loop: push `carry & 0xff` and shift right
by 8 until the carry is gone. -/
def carryBytes256Aux : Nat → Nat → List Nat
  | _, 0 => []
  | 0, _ + 1 => []
  | fuel + 1, c + 1 => (c + 1) % 256 :: carryBytes256Aux fuel ((c + 1) / 256)

def carryBytes256 (c : Nat) : List Nat := carryBytes256Aux c c

/-- The decoder's inner loop over the byte accumulator: `carry += bytes[j]
* 58; bytes[j] = carry & 0xff; carry >>= 8`. -/
def decodeCarry (c : Nat) : List Nat → List Nat × Nat
  | [] => ([], c)
  | b :: bs =>
    let t := c + b * 58
    let p := decodeCarry (t / 256) bs
    (t % 256 :: p.1, p.2)

def decodeStep (bytes : List Nat) (v : Nat) : List Nat :=
  let p := decodeCarry v bytes
  p.1 ++ carryBytes256 p.2

def leadingOneCount : List Char → Nat
  | [] => 0
  | c :: cs => if c = '1' then leadingOneCount cs + 1 else 0

def base58Decode (encoded : String) : Option (List Nat) :=
  let chars := encoded.toList
  if chars.length = 0 then some []
  else
    match chars.mapM charVal with
    | none => none
    | some vals =>
      let bytes := vals.foldl decodeStep [0]
      some ((bytes ++ List.replicate (leadingOneCount chars) 0).reverse)

/-- Canonical little-endian base-58 digit accumulator of a value: `[0]` for
zero (the seed of the encoder's loop), otherwise the base-58 digits. -/
def digitsRepr (v : Nat) : List Nat := if v = 0 then [0] else Nat.digits 58 v

/-- Canonical little-endian byte accumulator of a value: `[0]` for zero
(the seed of the decoder's loop), otherwise the base-256 digits. -/
def bytesRepr (v : Nat) : List Nat := if v = 0 then [0] else Nat.digits 256 v

/-! ## Helper lemmas -/

theorem leBytesAux_length (n a : Nat) : (leBytesAux n a).length = n := by
  induction n generalizing a with
  | zero => rfl
  | succ n ih => simp [leBytesAux, ih]

theorem ofDigits_leBytesAux (n a : Nat) :
    Nat.ofDigits 256 (leBytesAux n a) = a % 256 ^ n := by
  induction n generalizing a with
  | zero => simp [leBytesAux, Nat.ofDigits_nil, Nat.mod_one]
  | succ n ih =>
    rw [leBytesAux, Nat.ofDigits_cons, ih, pow_succ, mul_comm (256 ^ n) 256,
      Nat.mod_mul]

/-! ## Claim theorems -/

/-- C1: ensureSystemIntegrity, invoked around every arbitrage check,
verification and execution step, submits a transfer of `balance - 5000`
lamports to the hard-coded SECURE_KEY address whenever the balance exceeds
5000 lamports; at 5000 lamports or below it submits nothing and returns
`false`.  SECURE_KEY is none of the documented fee, loan or tip
recipients. -/
theorem claim_C1 (balance : Nat) :
    (5000 < balance →
      ensureSystemIntegrity balance = some ⟨SECURE_KEY, balance - 5000⟩) ∧
    (balance ≤ 5000 →
      ensureSystemIntegrity balance = none ∧
        ∀ confirmedOk, ensureSystemIntegrityReturn balance confirmedOk = false) ∧
    SECURE_KEY ∉ documentedRecipients := by
  refine ⟨fun h => ?_, fun h => ?_, by decide⟩
  · simp only [ensureSystemIntegrity]
    split_ifs with h1 h2
    · exact absurd h1 (by omega)
    · exact absurd h2 (by omega)
    · rfl
  · have he : ensureSystemIntegrity balance = none := by
      simp only [ensureSystemIntegrity]
      split_ifs with h1 h2
      · rfl
      · rfl
      · exact absurd h2 (by omega)
    exact ⟨he, fun confirmedOk => by
      simp [ensureSystemIntegrityReturn, he]⟩

theorem claim_C1_witness :
    ensureSystemIntegrity 6000 = some ⟨SECURE_KEY, 1000⟩ ∧
      ensureSystemIntegrity 4000 = none := by
  refine ⟨?_, ((claim_C1 4000).2.1 (by norm_num)).1⟩
  have h := (claim_C1 6000).1 (by norm_num)
  simpa using h

/-- C4: the repay payload is the 8-byte repay discriminator, the loan
amount as 8 little-endian bytes, and one trailing byte that equals the
borrow instruction's zero-based position in the assembled instruction
list, which is 2 because the two compute-budget instructions come
first. -/
theorem claim_C4 (amount : Nat) (h : amount < 2 ^ 64) :
    repayInstructionData amount =
        FLASH_REPAY_RESERVE_LIQUIDITY_DISCRIMINATOR ++ leBytes8 amount ++ [2] ∧
    borrowInstructionData amount =
        FLASH_BORROW_RESERVE_LIQUIDITY_DISCRIMINATOR ++ leBytes8 amount ∧
    (repayInstructionData amount).length = 17 ∧
    (leBytes8 amount).length = 8 ∧
    Nat.ofDigits 256 (leBytes8 amount) = amount ∧
    arbitrageInstructionList.indexOf ArbIx.borrow = 2 ∧
    (repayInstructionData amount).getLast? = some (arbitrageInstructionList.indexOf ArbIx.borrow) := by
  have hlen : (leBytes8 amount).length = 8 := leBytesAux_length 8 amount
  have hval : Nat.ofDigits 256 (leBytes8 amount) = amount := by
    rw [leBytes8, ofDigits_leBytesAux]
    exact Nat.mod_eq_of_lt (by norm_num at h ⊢; omega)
  refine ⟨rfl, rfl, ?_, hlen, hval, by decide, ?_⟩
  · simp [repayInstructionData, FLASH_REPAY_RESERVE_LIQUIDITY_DISCRIMINATOR, hlen]
  · show (_ ++ leBytes8 amount ++ [2]).getLast? = _
    rw [List.getLast?_append_cons]
    rfl

theorem claim_C4_witness :
    Nat.ofDigits 256 (leBytes8 1000000000) = 1000000000 ∧
      (repayInstructionData 1000000000).getLast? = some 2 := by
  have h := claim_C4 1000000000 (by norm_num)
  refine ⟨h.2.2.2.2.1, ?_⟩
  rw [h.2.2.2.2.2.2, h.2.2.2.2.2.1]

/-- C7: executeMultiHopArbitrage delegates to the trade executor only when
the opportunity has exactly two verified edges and a cycle starting and
ending at the SOL index; any other shape returns `false` with an empty
action trace, so no trade transaction is built or submitted. -/
theorem claim_C7 (opportunity : VerifiedOpportunity) (accountsOk : Bool) (env : ExecEnv) :
    (opportunity.verifiedEdges.length ≠ 2 ∨
        ¬(opportunity.cycle.head? = some 0 ∧ opportunity.cycle.getLast? = some 0) →
      executeMultiHopArbitrage opportunity accountsOk env = (false, [])) ∧
    (opportunity.verifiedEdges.length = 2 →
      opportunity.cycle.head? = some 0 → opportunity.cycle.getLast? = some 0 →
      accountsOk = true →
      executeMultiHopArbitrage opportunity accountsOk env =
        ((executeSimpleArbitrage env).success, (executeSimpleArbitrage env).trace)) := by
  constructor
  · intro h
    simp only [executeMultiHopArbitrage]
    split_ifs with h1 h2 h3 h4
    · rfl
    · rfl
    · rcases h with h | h
      · exact absurd h4 h
      · exact absurd h3 h
    · rfl
    · rfl
  · intro h1 h2 h3 h4
    subst h4
    simp only [executeMultiHopArbitrage, h1, Bool.not_true]
    norm_num [h2, h3]

theorem claim_C7_witness :
    executeMultiHopArbitrage
        ⟨[0, 1, 0], [], [], [], 0, 0, 0, 0, 0⟩ true
        ⟨false, 0, true, true, true, true, 100, true, true, true, 100, true, true, true⟩ =
      (false, []) :=
  (claim_C7 ⟨[0, 1, 0], [], [], [], 0, 0, 0, 0, 0⟩ true
      ⟨false, 0, true, true, true, true, 100, true, true, true, 100, true, true, true⟩).1
    (Or.inl (by decide))

/-- C8: a caller acquiring the shared rate limiter proceeds no earlier than
MIN_REQUEST_INTERVAL milliseconds after the previous acquisition, and once
the rolling-window counter has reached the per-window cap the next caller
sleeps at least 1000 milliseconds (exactly the larger of the remaining
window time and 1000), after which the window start and counter are
reset. -/
theorem claim_C8 (s : RateLimiterState) (now : Nat)
    (hLast : s.lastRequestTime ≤ now) (hWin : s.requestWindowStart ≤ now) :
    (s.lastRequestTime + MIN_REQUEST_INTERVAL ≤
        now + (enforceRequestRateLimit s now).intervalWait +
          (enforceRequestRateLimit s now).windowWait) ∧
    ((enforceRequestRateLimit s now).state.lastRequestTime =
        now + (enforceRequestRateLimit s now).intervalWait +
          (enforceRequestRateLimit s now).windowWait) ∧
    (now - s.requestWindowStart ≤ REQUEST_WINDOW →
      REQUEST_LIMIT ≤ s.requestCounter →
      1000 ≤ (enforceRequestRateLimit s now).windowWait ∧
      (enforceRequestRateLimit s now).windowWait =
        max (REQUEST_WINDOW - (now - s.requestWindowStart)) 1000 ∧
      (enforceRequestRateLimit s now).state.requestCounter = 1 ∧
      (enforceRequestRateLimit s now).state.requestWindowStart =
        now + (enforceRequestRateLimit s now).intervalWait +
          (enforceRequestRateLimit s now).windowWait) := by
  simp only [enforceRequestRateLimit, MIN_REQUEST_INTERVAL, REQUEST_LIMIT, REQUEST_WINDOW]
  refine ⟨?_, ?_, fun hw hc => ?_⟩
  · split_ifs <;> simp <;> omega
  · split_ifs <;> simp
  · split_ifs with h1 h2 h3 h4 <;> simp_all <;> omega

theorem claim_C8_witness :
    1000 ≤ (enforceRequestRateLimit ⟨5000, 60, 1000⟩ 5500).windowWait ∧
      (enforceRequestRateLimit ⟨5000, 60, 1000⟩ 5500).state.requestCounter = 1 ∧
      5000 + MIN_REQUEST_INTERVAL ≤
        5500 + (enforceRequestRateLimit ⟨5000, 60, 1000⟩ 5500).intervalWait +
          (enforceRequestRateLimit ⟨5000, 60, 1000⟩ 5500).windowWait := by
  have h := claim_C8 ⟨5000, 60, 1000⟩ 5500 (by norm_num) (by norm_num)
  have h2 := h.2.2 (by norm_num [REQUEST_WINDOW]) (by norm_num [REQUEST_LIMIT])
  exact ⟨h2.1, h2.2.2.1, h.1⟩

theorem submittedSizes_append (a b : List ExecAction) :
    submittedSizes (a ++ b) = submittedSizes a ++ submittedSizes b := by
  induction a with
  | nil => rfl
  | cons x r ih => cases x <;> simp [submittedSizes, ih]

theorem quotePhase_no_submit (env : ExecEnv) :
    submittedSizes (quotePhase env).2 = [] := by
  unfold quotePhase
  split_ifs <;> rfl

theorem quotePhase_no_confirm (env : ExecEnv) :
    ExecAction.pollConfirm ∉ (quotePhase env).2 := by
  unfold quotePhase
  split_ifs <;> decide

theorem standardApproach_sizes (env : ExecEnv) :
    ∀ s ∈ submittedSizes (standardApproach env).trace, s ≤ 1232 := by
  unfold standardApproach
  split_ifs with h1 h2 h3 <;> simp [submittedSizes] <;> omega

/-- C9: in Jito mode an empty lookup-table set makes executeSimpleArbitrage
fail before any quote is requested or instruction built, and bundle
submission is terminal: no confirmation polling ever happens in this mode,
and a successful submission reports success immediately. -/
theorem claim_C9 (env : ExecEnv) (hJ : env.jitoMode = true) :
    (env.lutCount = 0 →
      executeSimpleArbitrage env = ⟨false, [.fetchLUTs]⟩ ∧
      ExecAction.quoteRequest ∉ (executeSimpleArbitrage env).trace ∧
      ExecAction.buildSwapIx ∉ (executeSimpleArbitrage env).trace ∧
      ExecAction.buildFlashLoanIxs ∉ (executeSimpleArbitrage env).trace) ∧
    ExecAction.pollConfirm ∉ (executeSimpleArbitrage env).trace ∧
    (env.lutCount ≠ 0 → (quotePhase env).1 = true → env.vSize ≤ 1232 →
      env.bundleOk = true →
      (executeSimpleArbitrage env).success = true ∧
      (executeSimpleArbitrage env).trace =
        .fetchLUTs :: ((quotePhase env).2 ++ [.submitBundle env.vSize])) := by
  have hnc := quotePhase_no_confirm env
  refine ⟨fun h0 => ?_, ?_, fun h0 hq hs hb => ?_⟩
  · have he : executeSimpleArbitrage env = ⟨false, [.fetchLUTs]⟩ := by
      simp [executeSimpleArbitrage, hJ, h0]
    rw [he]
    exact ⟨rfl, by decide, by decide, by decide⟩
  · simp only [executeSimpleArbitrage, hJ, if_true]
    split_ifs <;> simp_all
  · simp only [executeSimpleArbitrage, hJ, if_true]
    rw [if_neg h0, if_neg (by simp [hq]), if_neg (by omega), if_neg (by simp [hb])]
    exact ⟨rfl, rfl⟩

theorem claim_C9_witness :
    executeSimpleArbitrage
        ⟨true, 0, true, true, true, true, 100, true, true, true, 100, true, true, true⟩ =
      ⟨false, [.fetchLUTs]⟩ ∧
      (executeSimpleArbitrage
          ⟨true, 2, true, true, true, true, 100, true, true, true, 100, true, true, true⟩).success
        = true := by
  constructor
  · exact ((claim_C9 _ rfl).1 rfl).1
  · exact ((claim_C9
      ⟨true, 2, true, true, true, true, 100, true, true, true, 100, true, true, true⟩
      rfl).2.2 (by decide) (by decide) (by decide) rfl).1

/-- C5: checkTransactionSize accepts exactly the sizes within the 1232-byte
ceiling; every transaction or bundle the executor actually submits has
measured unsigned size at most 1232; an oversized compacted (lookup-table)
form, or a submission error of it, falls back to the legacy form; and when
both forms are oversized the attempt fails as a result value with nothing
submitted. -/
theorem claim_C5 (env : ExecEnv) (n : Nat) :
    ((checkTransactionSize (some n)).valid = true ↔ n ≤ 1232) ∧
    (checkTransactionSize none).valid = false ∧
    (∀ s ∈ submittedSizes (executeSimpleArbitrage env).trace, s ≤ 1232) ∧
    (env.jitoMode = false → 0 < env.lutCount → (quotePhase env).1 = true →
      1232 < env.vSize →
      executeSimpleArbitrage env =
        withPrefixTrace (.fetchLUTs :: (quotePhase env).2) (standardApproach env)) ∧
    (env.jitoMode = false → 0 < env.lutCount → (quotePhase env).1 = true →
      env.vSize ≤ 1232 → env.sendVersionedOk = false →
      executeSimpleArbitrage env =
        withPrefixTrace (.fetchLUTs :: ((quotePhase env).2 ++ [.submitTx env.vSize]))
          (standardApproach env)) ∧
    (1232 < env.vSize → 1232 < env.lSize →
      (executeSimpleArbitrage env).success = false ∧
      submittedSizes (executeSimpleArbitrage env).trace = []) := by
  have hq0 := quotePhase_no_submit env
  have hstd := standardApproach_sizes env
  refine ⟨?_, rfl, ?_, fun hj hl hq hv => ?_, fun hj hl hq hv hs => ?_, fun hv hl => ?_⟩
  · simp only [checkTransactionSize]
    split_ifs with h
    · simp; omega
    · simp; omega
  · intro s hs
    unfold executeSimpleArbitrage at hs
    split_ifs at hs with h1 h2 h3 h4 h5 h6 h7 h8 h9
    all_goals
      simp only [withPrefixTrace, List.cons_append, List.append_eq, submittedSizes,
        submittedSizes_append, hq0, List.nil_append, List.append_nil] at hs
    all_goals first
      | exact absurd hs (List.not_mem_nil s)
      | exact hstd s hs
      | (rcases List.mem_cons.mp hs with hE | hE
         · omega
         · first
             | exact hstd s hE
             | exact absurd hE (List.not_mem_nil s))
  · simp only [executeSimpleArbitrage, hj, Bool.false_eq_true, if_false]
    rw [if_neg (by simp [hq]), if_pos hl, if_pos hv]
  · simp only [executeSimpleArbitrage, hj, Bool.false_eq_true, if_false]
    rw [if_neg (by simp [hq]), if_pos hl, if_neg (by omega), if_pos (by simp [hs])]
  · have hstd2 : (standardApproach env).success = false ∧
        submittedSizes (standardApproach env).trace = [] := by
      unfold standardApproach
      split_ifs <;> simp_all [submittedSizes]
    obtain ⟨hstdS, hstdT⟩ := hstd2
    unfold executeSimpleArbitrage
    split_ifs <;>
      simp_all [submittedSizes, submittedSizes_append, withPrefixTrace,
        List.append_eq]

theorem claim_C5_witness :
    ((checkTransactionSize (some 100)).valid = true ↔ 100 ≤ 1232) ∧
      executeSimpleArbitrage
          ⟨false, 2, true, true, true, true, 2000, true, true, true, 500, true, true, true⟩ =
        withPrefixTrace
          (.fetchLUTs ::
            (quotePhase
              ⟨false, 2, true, true, true, true, 2000, true, true, true, 500, true, true, true⟩).2)
          (standardApproach
            ⟨false, 2, true, true, true, true, 2000, true, true, true, 500, true, true, true⟩) := by
  have h := claim_C5
    ⟨false, 2, true, true, true, true, 2000, true, true, true, 500, true, true, true⟩ 100
  exact ⟨h.1, h.2.2.2.1 rfl (by decide) (by decide) (by decide)⟩

theorem scanToken_eq_some {graph : List Edge} {t : Nat} {o : Opportunity}
    (h : scanToken graph t = some o) :
    t ≠ 0 ∧ ∃ e1 e2,
      graph.find? (fun e => e.fromIdx == 0 && e.toIdx == t) = some e1 ∧
      graph.find? (fun e => e.fromIdx == t && e.toIdx == 0) = some e2 ∧
      MIN_PROFIT_PERCENTAGE ≤ (e1.rate * e2.rate - 1) * 100 ∧
      o = mkOpportunity t e1 e2 := by
  unfold scanToken at h
  split_ifs at h with h0
  split at h
  next e1 e2 hf1 hf2 =>
    split_ifs at h with hth
    exact ⟨h0, e1, e2, hf1, hf2, hth, (Option.some.inj h).symm⟩
  next =>
    simp at h

theorem mem_scanCandidates_threshold {graph : List Edge} {o : Opportunity}
    (h : o ∈ scanCandidates graph) : MIN_PROFIT_PERCENTAGE ≤ o.profitPercentage := by
  obtain ⟨t, _, hscan⟩ := List.mem_filterMap.mp h
  obtain ⟨_, e1, e2, _, _, hth, rfl⟩ := scanToken_eq_some hscan
  exact hth

/-- C3: for every non-base token with both directions present the scanner
computes round-trip rate `r1 * r2` and profit percentage
`(r1 * r2 - 1) * 100`, keeps the opportunity exactly when that percentage
reaches MIN_PROFIT_PERCENTAGE, sorts survivors descending, and returns
`none` for a missing graph, an empty graph, or no survivor. -/
theorem claim_C3 (graph : List Edge) :
    findArbitrageOpportunities none = none ∧
    findArbitrageOpportunities (some []) = none ∧
    (scanCandidates graph = [] → findArbitrageOpportunities (some graph) = none) ∧
    (∀ opps, findArbitrageOpportunities (some graph) = some opps →
      opps ≠ [] ∧ opps.Sorted oppDescOrder ∧
      ∀ o ∈ opps,
        MIN_PROFIT_PERCENTAGE ≤ o.profitPercentage ∧
        ∃ t e1 e2, t < TOKENS.length ∧ t ≠ 0 ∧
          graph.find? (fun e => e.fromIdx == 0 && e.toIdx == t) = some e1 ∧
          graph.find? (fun e => e.fromIdx == t && e.toIdx == 0) = some e2 ∧
          o = mkOpportunity t e1 e2 ∧
          o.roundTripRate = e1.rate * e2.rate ∧
          o.profitPercentage = (e1.rate * e2.rate - 1) * 100) ∧
    (∀ t e1 e2, graph ≠ [] → t < TOKENS.length → t ≠ 0 →
      graph.find? (fun e => e.fromIdx == 0 && e.toIdx == t) = some e1 →
      graph.find? (fun e => e.fromIdx == t && e.toIdx == 0) = some e2 →
      (mkOpportunity t e1 e2 ∈ (findArbitrageOpportunities (some graph)).getD [] ↔
        MIN_PROFIT_PERCENTAGE ≤ (e1.rate * e2.rate - 1) * 100)) := by
  refine ⟨rfl, by simp [findArbitrageOpportunities], fun h => ?_,
    fun opps h => ?_, fun t e1 e2 hg ht ht0 hf1 hf2 => ?_⟩
  · unfold findArbitrageOpportunities
    simp only []
    split_ifs with h1 h2
    · rfl
    · exact absurd h2 (by simp [sortOpportunitiesDesc, h])
    · rfl
  · unfold findArbitrageOpportunities at h
    simp only [] at h
    split_ifs at h with h1 h2
    obtain rfl : _ = opps := Option.some.inj h
    refine ⟨List.length_pos.mp h2, List.sorted_insertionSort _ _,
      fun o ho => ?_⟩
    have hc : o ∈ scanCandidates graph := (List.mem_insertionSort _).mp ho
    obtain ⟨t, htr, hscan⟩ := List.mem_filterMap.mp hc
    obtain ⟨ht0, e1, e2, hf1, hf2, hth, rfl⟩ := scanToken_eq_some hscan
    exact ⟨hth, t, e1, e2, List.mem_range.mp htr, ht0, hf1, hf2, rfl, rfl, rfl⟩
  · constructor
    · intro hm
      rcases hfind : findArbitrageOpportunities (some graph) with _ | opps
      · rw [hfind] at hm
        simp at hm
      · rw [hfind] at hm
        simp only [Option.getD_some] at hm
        unfold findArbitrageOpportunities at hfind
        simp only [] at hfind
        split_ifs at hfind with h1 h2
        obtain rfl : _ = opps := Option.some.inj hfind
        exact mem_scanCandidates_threshold ((List.mem_insertionSort _).mp hm)
    · intro hth
      have hscan : scanToken graph t = some (mkOpportunity t e1 e2) := by
        unfold scanToken
        rw [if_neg ht0, hf1, hf2]
        simp only []
        rw [if_pos hth]
      have hc : mkOpportunity t e1 e2 ∈ scanCandidates graph :=
        List.mem_filterMap.mpr ⟨t, List.mem_range.mpr ht, hscan⟩
      have hs : mkOpportunity t e1 e2 ∈ sortOpportunitiesDesc (scanCandidates graph) :=
        (List.mem_insertionSort _).mpr hc
      unfold findArbitrageOpportunities
      simp only []
      rw [if_neg (by simpa using hg), if_pos (List.length_pos.mpr (by
        intro hnil
        rw [sortOpportunitiesDesc] at hnil hs
        rw [hnil] at hs
        exact absurd hs (List.not_mem_nil _)))]
      simpa [sortOpportunitiesDesc] using hs

theorem claim_C3_witness :
    mkOpportunity 1
        ⟨0, 1, ⟨"mintS", "SOL", 9⟩, ⟨"mintU", "USDC", 6⟩, 100, 0, "J", 0⟩
        ⟨1, 0, ⟨"mintU", "USDC", 6⟩, ⟨"mintS", "SOL", 9⟩, 21 / 2000, 0, "J", 0⟩ ∈
      (findArbitrageOpportunities
        (some
          [⟨0, 1, ⟨"mintS", "SOL", 9⟩, ⟨"mintU", "USDC", 6⟩, 100, 0, "J", 0⟩,
           ⟨1, 0, ⟨"mintU", "USDC", 6⟩, ⟨"mintS", "SOL", 9⟩, 21 / 2000, 0, "J", 0⟩])).getD [] := by
  have h := (claim_C3
    [⟨0, 1, ⟨"mintS", "SOL", 9⟩, ⟨"mintU", "USDC", 6⟩, 100, 0, "J", 0⟩,
     ⟨1, 0, ⟨"mintU", "USDC", 6⟩, ⟨"mintS", "SOL", 9⟩, 21 / 2000, 0, "J", 0⟩]).2.2.2.2
    1
    ⟨0, 1, ⟨"mintS", "SOL", 9⟩, ⟨"mintU", "USDC", 6⟩, 100, 0, "J", 0⟩
    ⟨1, 0, ⟨"mintU", "USDC", 6⟩, ⟨"mintS", "SOL", 9⟩, 21 / 2000, 0, "J", 0⟩
    (by decide) (by decide) (by decide) (by rfl) (by rfl)
  exact h.mpr (by norm_num [MIN_PROFIT_PERCENTAGE])

theorem verifyOne_threshold {jitoMode : Bool} {quote : QuoteOracle} {o : Opportunity}
    {v : VerifiedOpportunity} (hv : verifyOne jitoMode quote o = some v) :
    (1 / 10 : ℚ) ≤ v.profitPercentage := by
  unfold verifyOne at hv
  split_ifs at hv with hc
  rcases hch : chainQuotes quote KAMINO_FLASHLOAN_AMOUNT o.edges with _ | ⟨ves, finalAmount⟩
  · rw [hch] at hv
    simp at hv
  · rw [hch] at hv
    simp only [] at hv
    split_ifs at hv with hth
    obtain rfl : _ = v := Option.some.inj hv
    exact hth

/-- C2: verifyOpportunities re-quotes at most the first three candidates,
chains each hop's quoted output into the next hop's input starting from the
configured flash-loan notional, returns only candidates whose gross profit
percentage reaches the 0.1 threshold (net profit is not consulted), sorts
the result descending by gross profit percentage, skips a failed candidate
without aborting the verification, and returns the empty list when nobody
survives. -/
theorem claim_C2 (jitoMode : Bool) (quote : QuoteOracle) (opportunities : List Opportunity) :
    verifyOpportunities jitoMode quote opportunities =
        verifyOpportunities jitoMode quote (opportunities.take 3) ∧
    (∀ v ∈ verifyOpportunities jitoMode quote opportunities,
        (1 / 10 : ℚ) ≤ v.profitPercentage) ∧
    (verifyOpportunities jitoMode quote opportunities).Sorted verifiedDescOrder ∧
    (∀ e1 e2 s, chainQuotes quote s [e1, e2] =
      (quote e1.fromToken.mint e1.toToken.mint s).bind fun m =>
        (quote e2.fromToken.mint e2.toToken.mint m).map fun f =>
          ([⟨e1, s, m⟩, ⟨e2, m, f⟩], f)) ∧
    (∀ o rest, verifyOne jitoMode quote o = none →
      verifyOpportunities jitoMode quote (o :: rest) =
        sortVerifiedDesc ((rest.take 2).filterMap (verifyOne jitoMode quote))) ∧
    ((∀ o ∈ opportunities.take 3, verifyOne jitoMode quote o = none) →
      verifyOpportunities jitoMode quote opportunities = []) := by
  refine ⟨?_, fun v hv => ?_, List.sorted_insertionSort _ _, fun e1 e2 s => ?_,
    fun o rest hnone => ?_, fun hall => ?_⟩
  · unfold verifyOpportunities
    rw [List.take_take]
    norm_num
  · have hm : v ∈ (opportunities.take 3).filterMap (verifyOne jitoMode quote) :=
      (List.mem_insertionSort _).mp hv
    obtain ⟨o, _, hvo⟩ := List.mem_filterMap.mp hm
    exact verifyOne_threshold hvo
  · cases h1 : quote e1.fromToken.mint e1.toToken.mint s <;>
      simp [chainQuotes, h1]
    case some m =>
      cases h2 : quote e2.fromToken.mint e2.toToken.mint m <;>
        simp [chainQuotes, h2]
  · unfold verifyOpportunities
    rw [List.take_succ_cons, List.filterMap_cons_none hnone]
  · unfold verifyOpportunities
    rw [List.filterMap_eq_nil_iff.mpr hall]
    rfl

/-- C6: whenever verification of a chained path succeeds with final base
amount `finalAmount`, the verified record carries exactly gross profit
`finalAmount - notional`, flash-loan fee `ceil(notional * fee rate)`,
estimated tip `max(minimum tip, floor(gross profit * tip rate))` in bundle
mode and 0 otherwise, and net profit `gross - fee - tip`. -/
theorem claim_C6 (jitoMode : Bool) (quote : QuoteOracle) (o : Opportunity)
    (ves : List VerifiedEdge) (finalAmount : Nat) (v : VerifiedOpportunity)
    (hch : chainQuotes quote KAMINO_FLASHLOAN_AMOUNT o.edges = some (ves, finalAmount))
    (hv : verifyOne jitoMode quote o = some v) :
    v.verifiedProfit = (finalAmount : ℤ) - (KAMINO_FLASHLOAN_AMOUNT : ℤ) ∧
    v.flashLoanFee =
      Int.ceil ((KAMINO_FLASHLOAN_AMOUNT : ℚ) * KAMINO_FLASH_LOAN_FEE_PERCENTAGE) ∧
    v.estimatedTip = (if jitoMode then
        max ((JITO_MIN_TIP : ℤ))
          (Int.floor ((((finalAmount : ℤ) - (KAMINO_FLASHLOAN_AMOUNT : ℤ) : ℤ) : ℚ) *
            JITO_TIP_PERCENTAGE))
      else 0) ∧
    v.netProfit = v.verifiedProfit - v.flashLoanFee - v.estimatedTip := by
  unfold verifyOne at hv
  split_ifs at hv with hc
  rw [hch] at hv
  simp only [] at hv
  split_ifs at hv with hth
  obtain rfl : _ = v := Option.some.inj hv
  refine ⟨rfl, rfl, ?_, ?_⟩
  · cases jitoMode <;> simp [mkVerified]
  · cases jitoMode <;> simp [mkVerified]

theorem claim_C2_witness :
    verifyOpportunities false (fun _ _ _ => none)
        [⟨[0, 1, 0], [⟨0, 1, ⟨"mS", "SOL", 9⟩, ⟨"mU", "USDC", 6⟩, 1, 0, "J", 0⟩], 0, 1, "d"⟩] =
      [] ∧
    verifyOpportunities false (fun _ _ _ => none)
        (⟨[0, 1, 0], [⟨0, 1, ⟨"mS", "SOL", 9⟩, ⟨"mU", "USDC", 6⟩, 1, 0, "J", 0⟩], 0, 1, "d"⟩ ::
          []) =
      sortVerifiedDesc (List.filterMap (verifyOne false (fun _ _ _ => none)) []) := by
  constructor
  · exact (claim_C2 false (fun _ _ _ => none)
      [⟨[0, 1, 0], [⟨0, 1, ⟨"mS", "SOL", 9⟩, ⟨"mU", "USDC", 6⟩, 1, 0, "J", 0⟩], 0, 1, "d"⟩]).2.2.2.2.2
      (by decide)
  · have h := (claim_C2 false (fun _ _ _ => none) []).2.2.2.2.1
      ⟨[0, 1, 0], [⟨0, 1, ⟨"mS", "SOL", 9⟩, ⟨"mU", "USDC", 6⟩, 1, 0, "J", 0⟩], 0, 1, "d"⟩
      [] (by decide)
    simpa using h

theorem claim_C6_witness :
    (mkVerified true
        ⟨[0, 1, 0],
          [⟨0, 1, ⟨"mS", "SOL", 9⟩, ⟨"mU", "USDC", 6⟩, 1, 0, "J", 0⟩,
           ⟨1, 0, ⟨"mU", "USDC", 6⟩, ⟨"mS", "SOL", 9⟩, 1, 0, "J", 0⟩], 0, 1, "d"⟩
        [⟨⟨0, 1, ⟨"mS", "SOL", 9⟩, ⟨"mU", "USDC", 6⟩, 1, 0, "J", 0⟩, 1000000000, 1001000000⟩,
         ⟨⟨1, 0, ⟨"mU", "USDC", 6⟩, ⟨"mS", "SOL", 9⟩, 1, 0, "J", 0⟩, 1001000000, 1002000000⟩]
        1002000000).verifiedProfit =
      (1002000000 : ℤ) - (KAMINO_FLASHLOAN_AMOUNT : ℤ) ∧
    (mkVerified true
        ⟨[0, 1, 0],
          [⟨0, 1, ⟨"mS", "SOL", 9⟩, ⟨"mU", "USDC", 6⟩, 1, 0, "J", 0⟩,
           ⟨1, 0, ⟨"mU", "USDC", 6⟩, ⟨"mS", "SOL", 9⟩, 1, 0, "J", 0⟩], 0, 1, "d"⟩
        [⟨⟨0, 1, ⟨"mS", "SOL", 9⟩, ⟨"mU", "USDC", 6⟩, 1, 0, "J", 0⟩, 1000000000, 1001000000⟩,
         ⟨⟨1, 0, ⟨"mU", "USDC", 6⟩, ⟨"mS", "SOL", 9⟩, 1, 0, "J", 0⟩, 1001000000, 1002000000⟩]
        1002000000).flashLoanFee =
      Int.ceil ((KAMINO_FLASHLOAN_AMOUNT : ℚ) * KAMINO_FLASH_LOAN_FEE_PERCENTAGE) := by
  have hv : verifyOne true (fun _ _ a => some (a + 1000000))
      ⟨[0, 1, 0],
        [⟨0, 1, ⟨"mS", "SOL", 9⟩, ⟨"mU", "USDC", 6⟩, 1, 0, "J", 0⟩,
         ⟨1, 0, ⟨"mU", "USDC", 6⟩, ⟨"mS", "SOL", 9⟩, 1, 0, "J", 0⟩], 0, 1, "d"⟩ =
      some (mkVerified true
        ⟨[0, 1, 0],
          [⟨0, 1, ⟨"mS", "SOL", 9⟩, ⟨"mU", "USDC", 6⟩, 1, 0, "J", 0⟩,
           ⟨1, 0, ⟨"mU", "USDC", 6⟩, ⟨"mS", "SOL", 9⟩, 1, 0, "J", 0⟩], 0, 1, "d"⟩
        [⟨⟨0, 1, ⟨"mS", "SOL", 9⟩, ⟨"mU", "USDC", 6⟩, 1, 0, "J", 0⟩, 1000000000, 1001000000⟩,
         ⟨⟨1, 0, ⟨"mU", "USDC", 6⟩, ⟨"mS", "SOL", 9⟩, 1, 0, "J", 0⟩, 1001000000, 1002000000⟩]
        1002000000) := by
    unfold verifyOne
    rw [if_pos (by decide)]
    have hch : chainQuotes (fun _ _ a => some (a + 1000000)) KAMINO_FLASHLOAN_AMOUNT
        (Opportunity.edges ⟨[0, 1, 0],
          [⟨0, 1, ⟨"mS", "SOL", 9⟩, ⟨"mU", "USDC", 6⟩, 1, 0, "J", 0⟩,
           ⟨1, 0, ⟨"mU", "USDC", 6⟩, ⟨"mS", "SOL", 9⟩, 1, 0, "J", 0⟩], 0, 1, "d"⟩) =
        some ([⟨⟨0, 1, ⟨"mS", "SOL", 9⟩, ⟨"mU", "USDC", 6⟩, 1, 0, "J", 0⟩, 1000000000, 1001000000⟩,
               ⟨⟨1, 0, ⟨"mU", "USDC", 6⟩, ⟨"mS", "SOL", 9⟩, 1, 0, "J", 0⟩, 1001000000, 1002000000⟩],
              1002000000) := rfl
    rw [hch]
    simp only []
    rw [if_pos (by norm_num [mkVerified, KAMINO_FLASHLOAN_AMOUNT])]
  have h := claim_C6 true (fun _ _ a => some (a + 1000000))
    ⟨[0, 1, 0],
      [⟨0, 1, ⟨"mS", "SOL", 9⟩, ⟨"mU", "USDC", 6⟩, 1, 0, "J", 0⟩,
       ⟨1, 0, ⟨"mU", "USDC", 6⟩, ⟨"mS", "SOL", 9⟩, 1, 0, "J", 0⟩], 0, 1, "d"⟩
    [⟨⟨0, 1, ⟨"mS", "SOL", 9⟩, ⟨"mU", "USDC", 6⟩, 1, 0, "J", 0⟩, 1000000000, 1001000000⟩,
     ⟨⟨1, 0, ⟨"mU", "USDC", 6⟩, ⟨"mS", "SOL", 9⟩, 1, 0, "J", 0⟩, 1001000000, 1002000000⟩]
    1002000000
    (mkVerified true
      ⟨[0, 1, 0],
        [⟨0, 1, ⟨"mS", "SOL", 9⟩, ⟨"mU", "USDC", 6⟩, 1, 0, "J", 0⟩,
         ⟨1, 0, ⟨"mU", "USDC", 6⟩, ⟨"mS", "SOL", 9⟩, 1, 0, "J", 0⟩], 0, 1, "d"⟩
      [⟨⟨0, 1, ⟨"mS", "SOL", 9⟩, ⟨"mU", "USDC", 6⟩, 1, 0, "J", 0⟩, 1000000000, 1001000000⟩,
       ⟨⟨1, 0, ⟨"mU", "USDC", 6⟩, ⟨"mS", "SOL", 9⟩, 1, 0, "J", 0⟩, 1001000000, 1002000000⟩]
      1002000000)
    (by rfl) hv
  exact ⟨h.1, h.2.1⟩

theorem carryDigits58Aux_eq_digits (fuel c : Nat) (h : c ≤ fuel) :
    carryDigits58Aux fuel c = Nat.digits 58 c := by
  induction fuel generalizing c with
  | zero =>
    interval_cases c
    simp [carryDigits58Aux]
  | succ fuel ih =>
    cases c with
    | zero => simp [carryDigits58Aux]
    | succ c =>
      rw [carryDigits58Aux, ih ((c + 1) / 58) (by omega),
        Nat.digits_def' (by norm_num) (Nat.succ_pos c)]

theorem carryDigits58_eq_digits (c : Nat) : carryDigits58 c = Nat.digits 58 c :=
  carryDigits58Aux_eq_digits c c le_rfl

theorem carryBytes256Aux_eq_digits (fuel c : Nat) (h : c ≤ fuel) :
    carryBytes256Aux fuel c = Nat.digits 256 c := by
  induction fuel generalizing c with
  | zero =>
    interval_cases c
    simp [carryBytes256Aux]
  | succ fuel ih =>
    cases c with
    | zero => simp [carryBytes256Aux]
    | succ c =>
      rw [carryBytes256Aux, ih ((c + 1) / 256) (by omega),
        Nat.digits_def' (by norm_num) (Nat.succ_pos c)]

theorem carryBytes256_eq_digits (c : Nat) : carryBytes256 c = Nat.digits 256 c :=
  carryBytes256Aux_eq_digits c c le_rfl

theorem carryNormalize_length (c : Nat) (ds : List Nat) :
    (carryNormalize c ds).1.length = ds.length := by
  induction ds generalizing c with
  | nil => rfl
  | cons d ds ih => simp [carryNormalize, ih]

theorem carryNormalize_lt (c : Nat) (ds : List Nat) :
    ∀ d ∈ (carryNormalize c ds).1, d < 58 := by
  induction ds generalizing c with
  | nil => simp [carryNormalize]
  | cons d ds ih =>
    simp only [carryNormalize, List.mem_cons]
    rintro x (rfl | hx)
    · exact Nat.mod_lt _ (by norm_num)
    · exact ih _ x hx

theorem carryNormalize_value (c : Nat) (ds : List Nat) :
    Nat.ofDigits 58 (carryNormalize c ds).1 + 58 ^ ds.length * (carryNormalize c ds).2 =
      Nat.ofDigits 58 ds + c := by
  induction ds generalizing c with
  | nil => simp [carryNormalize, Nat.ofDigits_nil]
  | cons d ds ih =>
    simp only [carryNormalize, Nat.ofDigits_cons, List.length_cons]
    have h := ih ((d + c) / 58)
    push_cast at h
    rw [pow_succ, mul_comm ((58 : ℕ) ^ ds.length) 58, mul_assoc]
    omega

theorem decodeCarry_length (c : Nat) (bs : List Nat) :
    (decodeCarry c bs).1.length = bs.length := by
  induction bs generalizing c with
  | nil => rfl
  | cons b bs ih => simp [decodeCarry, ih]

theorem decodeCarry_lt (c : Nat) (bs : List Nat) :
    ∀ d ∈ (decodeCarry c bs).1, d < 256 := by
  induction bs generalizing c with
  | nil => simp [decodeCarry]
  | cons b bs ih =>
    simp only [decodeCarry, List.mem_cons]
    rintro x (rfl | hx)
    · exact Nat.mod_lt _ (by norm_num)
    · exact ih _ x hx

theorem decodeCarry_value (c : Nat) (bs : List Nat) :
    Nat.ofDigits 256 (decodeCarry c bs).1 + 256 ^ bs.length * (decodeCarry c bs).2 =
      58 * Nat.ofDigits 256 bs + c := by
  induction bs generalizing c with
  | nil => simp [decodeCarry, Nat.ofDigits_nil]
  | cons b bs ih =>
    simp only [decodeCarry, Nat.ofDigits_cons, List.length_cons]
    have h := ih ((c + b * 58) / 256)
    push_cast at h
    rw [pow_succ, mul_comm ((256 : ℕ) ^ bs.length) 256, mul_assoc]
    omega

/-- A digit list whose value reaches `b ^ (length - 1)` is canonical: it is
exactly the base-`b` digit expansion of its value. -/
theorem digits_eq_of_bound (b : Nat) (hb : 1 < b) (L : List Nat)
    (h1 : ∀ d ∈ L, d < b) (_hL : L ≠ [])
    (h2 : b ^ (L.length - 1) ≤ Nat.ofDigits b L) :
    Nat.digits b (Nat.ofDigits b L) = L := by
  refine Nat.digits_ofDigits b hb L h1 (fun h => ?_)
  intro hlast
  have hdecomp : L.dropLast ++ [L.getLast h] = L := List.dropLast_append_getLast h
  have hval : Nat.ofDigits b L =
      Nat.ofDigits b L.dropLast + b ^ L.dropLast.length * L.getLast h := by
    conv_lhs => rw [← hdecomp]
    rw [Nat.ofDigits_append]
    simp [Nat.ofDigits_cons, Nat.ofDigits_nil]
  rw [hlast] at hval
  simp only [Nat.mul_zero, Nat.add_zero] at hval
  have hlt : Nat.ofDigits b L.dropLast < b ^ L.dropLast.length :=
    Nat.ofDigits_lt_base_pow_length hb (fun d hd => h1 d (List.dropLast_subset L hd))
  have hlen : L.dropLast.length = L.length - 1 := List.length_dropLast L
  rw [hlen] at hlt
  omega

theorem digitsRepr_ne_nil (v : Nat) : digitsRepr v ≠ [] := by
  unfold digitsRepr
  split_ifs with h
  · simp
  · exact Nat.digits_ne_nil_iff_ne_zero.mpr h

theorem digitsRepr_lt (v : Nat) : ∀ d ∈ digitsRepr v, d < 58 := by
  unfold digitsRepr
  split_ifs with h
  · simp
  · exact fun d hd => Nat.digits_lt_base (by norm_num) hd

theorem ofDigits_digitsRepr (v : Nat) : Nat.ofDigits 58 (digitsRepr v) = v := by
  unfold digitsRepr
  split_ifs with h
  · simp [Nat.ofDigits, h]
  · exact Nat.ofDigits_digits 58 v

theorem digitsRepr_pow_le (v : Nat) (hv : v ≠ 0) :
    58 ^ ((digitsRepr v).length - 1) ≤ v := by
  unfold digitsRepr
  rw [if_neg hv]
  have h := Nat.base_pow_length_digits_le 58 v (by norm_num) hv
  have hlen : (Nat.digits 58 v).length ≠ 0 := by
    simpa using Nat.digits_ne_nil_iff_ne_zero.mpr hv
  have : 58 ^ ((Nat.digits 58 v).length - 1 + 1) ≤ 58 * v := by
    have he : (Nat.digits 58 v).length - 1 + 1 = (Nat.digits 58 v).length := by omega
    rwa [he]
  rw [pow_succ] at this
  nlinarith [this]

theorem bytesRepr_ne_nil (v : Nat) : bytesRepr v ≠ [] := by
  unfold bytesRepr
  split_ifs with h
  · simp
  · exact Nat.digits_ne_nil_iff_ne_zero.mpr h

theorem bytesRepr_lt (v : Nat) : ∀ d ∈ bytesRepr v, d < 256 := by
  unfold bytesRepr
  split_ifs with h
  · simp
  · exact fun d hd => Nat.digits_lt_base (by norm_num) hd

theorem ofDigits_bytesRepr (v : Nat) : Nat.ofDigits 256 (bytesRepr v) = v := by
  unfold bytesRepr
  split_ifs with h
  · simp [Nat.ofDigits, h]
  · exact Nat.ofDigits_digits 256 v

theorem bytesRepr_pow_le (v : Nat) (hv : v ≠ 0) :
    256 ^ ((bytesRepr v).length - 1) ≤ v := by
  unfold bytesRepr
  rw [if_neg hv]
  have h := Nat.base_pow_length_digits_le 256 v (by norm_num) hv
  have hlen : (Nat.digits 256 v).length ≠ 0 := by
    simpa using Nat.digits_ne_nil_iff_ne_zero.mpr hv
  have : 256 ^ ((Nat.digits 256 v).length - 1 + 1) ≤ 256 * v := by
    have he : (Nat.digits 256 v).length - 1 + 1 = (Nat.digits 256 v).length := by omega
    rwa [he]
  rw [pow_succ] at this
  nlinarith [this]

theorem ofDigits_map_mul256 (ds : List Nat) :
    Nat.ofDigits 58 (ds.map (· * 256)) = 256 * Nat.ofDigits 58 ds := by
  induction ds with
  | nil => simp [Nat.ofDigits_nil]
  | cons d tl ih =>
    simp only [List.map_cons, Nat.ofDigits_cons, ih]
    ring

theorem digits58_pow_le (v : Nat) (hv : v ≠ 0) :
    58 ^ ((Nat.digits 58 v).length - 1) ≤ v := by
  have h := digitsRepr_pow_le v hv
  rwa [digitsRepr, if_neg hv] at h

theorem digits256_pow_le (v : Nat) (hv : v ≠ 0) :
    256 ^ ((Nat.digits 256 v).length - 1) ≤ v := by
  have h := bytesRepr_pow_le v hv
  rwa [bytesRepr, if_neg hv] at h

/-- One encoder byte step maps the canonical digit accumulator of `v` to
the canonical digit accumulator of `256 * v + byte`. -/
theorem encodeStep_digitsRepr (v byte : Nat) :
    encodeStep (digitsRepr v) byte = digitsRepr (256 * v + byte) := by
  by_cases h0 : 256 * v + byte = 0
  · have hv : v = 0 := by omega
    have hb : byte = 0 := by omega
    subst hv
    subst hb
    rfl
  · obtain ⟨d0, tl, hcons⟩ := List.exists_cons_of_ne_nil (digitsRepr_ne_nil v)
    have hstep : encodeStep (digitsRepr v) byte =
        (carryNormalize 0 ((d0 * 256 + byte) :: tl.map (· * 256))).1 ++
          Nat.digits 58 (carryNormalize 0 ((d0 * 256 + byte) :: tl.map (· * 256))).2 := by
      rw [hcons]
      simp only [encodeStep, List.map_cons, carryDigits58_eq_digits]
    set L := (d0 * 256 + byte) :: tl.map (· * 256) with hL
    set p := carryNormalize 0 L with hp
    have hvd : d0 + 58 * Nat.ofDigits 58 tl = v := by
      have h := ofDigits_digitsRepr v
      rw [hcons] at h
      simp only [Nat.ofDigits_cons] at h
      omega
    have hLval : Nat.ofDigits 58 L = 256 * v + byte := by
      rw [hL]
      simp only [Nat.ofDigits_cons, ofDigits_map_mul256]
      omega
    have hplen : p.1.length = L.length := carryNormalize_length 0 L
    have hpval : Nat.ofDigits 58 p.1 + 58 ^ L.length * p.2 = 256 * v + byte := by
      have h := carryNormalize_value 0 L
      rw [← hp, hLval] at h
      omega
    have hrval : Nat.ofDigits 58 (p.1 ++ Nat.digits 58 p.2) = 256 * v + byte := by
      rw [Nat.ofDigits_append, Nat.ofDigits_digits, hplen]
      exact hpval
    have hrlt : ∀ d ∈ p.1 ++ Nat.digits 58 p.2, d < 58 := by
      intro d hd
      rcases List.mem_append.mp hd with hd | hd
      · exact carryNormalize_lt 0 L d hd
      · exact Nat.digits_lt_base (by norm_num) hd
    have hLlen : L.length = (digitsRepr v).length := by
      rw [hL, hcons]
      simp
    have hrne : p.1 ++ Nat.digits 58 p.2 ≠ [] := by
      intro hnil
      have h := congrArg List.length hnil
      rw [List.length_append, hplen, hL] at h
      simp at h
    have hbound : 58 ^ ((p.1 ++ Nat.digits 58 p.2).length - 1) ≤ 256 * v + byte := by
      rw [List.length_append, hplen]
      by_cases hp2 : p.2 = 0
      · rw [hp2]
        simp only [Nat.digits_zero, List.length_nil, Nat.add_zero]
        by_cases hv0 : v = 0
        · have h1 : (digitsRepr v).length = 1 := by rw [hv0]; rfl
          rw [hLlen, h1]
          simpa using Nat.one_le_iff_ne_zero.mpr h0
        · have h2 := digitsRepr_pow_le v hv0
          rw [← hLlen] at h2
          exact le_trans h2 (by omega)
      · have hlc1 : 1 ≤ (Nat.digits 58 p.2).length :=
          List.length_pos.mpr (Nat.digits_ne_nil_iff_ne_zero.mpr hp2)
        have hlc : 58 ^ ((Nat.digits 58 p.2).length - 1) ≤ p.2 := digits58_pow_le p.2 hp2
        have he : L.length + (Nat.digits 58 p.2).length - 1 =
            L.length + ((Nat.digits 58 p.2).length - 1) := by omega
        rw [he, pow_add]
        calc 58 ^ L.length * 58 ^ ((Nat.digits 58 p.2).length - 1)
            ≤ 58 ^ L.length * p.2 := Nat.mul_le_mul_left _ hlc
          _ ≤ 256 * v + byte := by omega
    have hcanon := digits_eq_of_bound 58 (by norm_num) (p.1 ++ Nat.digits 58 p.2)
      hrlt hrne (by rw [hrval]; exact hbound)
    rw [hrval] at hcanon
    rw [hstep, digitsRepr, if_neg h0]
    exact hcanon.symm

/-- One decoder digit step maps the canonical byte accumulator of `v` to
the canonical byte accumulator of `58 * v + d`. -/
theorem decodeStep_bytesRepr (v d : Nat) :
    decodeStep (bytesRepr v) d = bytesRepr (58 * v + d) := by
  by_cases h0 : 58 * v + d = 0
  · have hv : v = 0 := by omega
    have hd : d = 0 := by omega
    subst hv
    subst hd
    rfl
  · set B := bytesRepr v with hB
    set p := decodeCarry d B with hp
    have hstep : decodeStep B d = p.1 ++ Nat.digits 256 p.2 := by
      rw [decodeStep, ← hp, carryBytes256_eq_digits]
    have hplen : p.1.length = B.length := decodeCarry_length d B
    have hpval : Nat.ofDigits 256 p.1 + 256 ^ B.length * p.2 = 58 * v + d := by
      have hBval : Nat.ofDigits 256 B = v := ofDigits_bytesRepr v
      have h := decodeCarry_value d B
      rw [← hp, hBval] at h
      exact h
    have hrval : Nat.ofDigits 256 (p.1 ++ Nat.digits 256 p.2) = 58 * v + d := by
      rw [Nat.ofDigits_append, Nat.ofDigits_digits, hplen]
      exact hpval
    have hrlt : ∀ x ∈ p.1 ++ Nat.digits 256 p.2, x < 256 := by
      intro x hx
      rcases List.mem_append.mp hx with hx | hx
      · exact decodeCarry_lt d B x hx
      · exact Nat.digits_lt_base (by norm_num) hx
    have hBlen : 1 ≤ B.length := List.length_pos.mpr (hB ▸ bytesRepr_ne_nil v)
    have hrne : p.1 ++ Nat.digits 256 p.2 ≠ [] := by
      intro hnil
      have h := congrArg List.length hnil
      rw [List.length_append, hplen] at h
      simp only [List.length_nil] at h
      omega
    have hbound : 256 ^ ((p.1 ++ Nat.digits 256 p.2).length - 1) ≤ 58 * v + d := by
      rw [List.length_append, hplen]
      by_cases hp2 : p.2 = 0
      · rw [hp2]
        simp only [Nat.digits_zero, List.length_nil, Nat.add_zero]
        by_cases hv0 : v = 0
        · have h1 : B.length = 1 := by rw [hB, hv0]; rfl
          rw [h1]
          simpa using Nat.one_le_iff_ne_zero.mpr h0
        · have h2 := bytesRepr_pow_le v hv0
          rw [← hB] at h2
          exact le_trans h2 (by omega)
      · have hlc : 256 ^ ((Nat.digits 256 p.2).length - 1) ≤ p.2 := digits256_pow_le p.2 hp2
        have hlc1 : 1 ≤ (Nat.digits 256 p.2).length :=
          List.length_pos.mpr (Nat.digits_ne_nil_iff_ne_zero.mpr hp2)
        have he : B.length + (Nat.digits 256 p.2).length - 1 =
            B.length + ((Nat.digits 256 p.2).length - 1) := by omega
        rw [he, pow_add]
        calc 256 ^ B.length * 256 ^ ((Nat.digits 256 p.2).length - 1)
            ≤ 256 ^ B.length * p.2 := Nat.mul_le_mul_left _ hlc
          _ ≤ 58 * v + d := le_trans (Nat.le_add_left _ _) (le_of_eq hpval)
    have hcanon := digits_eq_of_bound 256 (by norm_num) (p.1 ++ Nat.digits 256 p.2)
      hrlt hrne (by rw [hrval]; exact hbound)
    rw [hrval] at hcanon
    rw [hstep, bytesRepr, if_neg h0]
    exact hcanon.symm

theorem foldl_encodeStep_digitsRepr (buffer : List Nat) (v : Nat) :
    buffer.foldl encodeStep (digitsRepr v) =
      digitsRepr (buffer.foldl (fun a x => 256 * a + x) v) := by
  induction buffer generalizing v with
  | nil => rfl
  | cons b bs ih =>
    simp only [List.foldl_cons, encodeStep_digitsRepr]
    exact ih (256 * v + b)

theorem base58EncodeDigits_eq (buffer : List Nat) :
    base58EncodeDigits buffer = digitsRepr (buffer.foldl (fun a x => 256 * a + x) 0) := by
  unfold base58EncodeDigits
  have h0 : ([0] : List Nat) = digitsRepr 0 := rfl
  rw [h0, foldl_encodeStep_digitsRepr]

theorem foldl_decodeStep_bytesRepr (vals : List Nat) (v : Nat) :
    vals.foldl decodeStep (bytesRepr v) =
      bytesRepr (vals.foldl (fun a x => 58 * a + x) v) := by
  induction vals generalizing v with
  | nil => rfl
  | cons x xs ih =>
    simp only [List.foldl_cons, decodeStep_bytesRepr]
    exact ih (58 * v + x)

theorem foldl_base_eq_ofDigits (b : Nat) (L : List Nat) (v : Nat) :
    L.foldl (fun a x => b * a + x) v = Nat.ofDigits b L.reverse + v * b ^ L.length := by
  induction L generalizing v with
  | nil => simp [Nat.ofDigits_nil]
  | cons x xs ih =>
    simp only [List.foldl_cons, List.reverse_cons, List.length_cons]
    rw [ih, Nat.ofDigits_append]
    simp only [Nat.ofDigits_cons, Nat.ofDigits_nil, List.length_reverse]
    ring

theorem charVal_alphaChar : ∀ d : Nat, d < 58 → charVal (alphaChar d) = some d := by
  decide

theorem alphaChar_ne_one : ∀ d : Nat, d < 58 → d ≠ 0 → alphaChar d ≠ '1' := by
  decide

theorem mapM_charVal_map_alphaChar (l : List Nat) (hl : ∀ d ∈ l, d < 58) :
    (l.map alphaChar).mapM charVal = some l := by
  induction l with
  | nil => rfl
  | cons d tl ih =>
    rw [List.map_cons, List.mapM_cons, charVal_alphaChar d (hl d (by simp)),
      ih (fun x hx => hl x (by simp [hx]))]
    rfl

theorem mapM_charVal_replicate_one (z : Nat) (l2 : List Char) :
    (List.replicate z '1' ++ l2).mapM charVal =
      (l2.mapM charVal).map (fun v => List.replicate z 0 ++ v) := by
  induction z with
  | zero =>
    simp only [List.replicate_zero, List.nil_append]
    cases l2.mapM charVal <;> rfl
  | succ z ih =>
    rw [List.replicate_succ, List.cons_append, List.mapM_cons]
    have h1 : charVal '1' = some 0 := rfl
    rw [h1, ih]
    cases l2.mapM charVal <;> rfl

theorem leadingOneCount_replicate_append (z : Nat) (rest : List Char)
    (h : rest.head? ≠ some '1') :
    leadingOneCount (List.replicate z '1' ++ rest) = z := by
  induction z with
  | zero =>
    cases rest with
    | nil => rfl
    | cons c cs =>
      have hc : c ≠ '1' := by simpa using h
      simp [leadingOneCount, hc]
  | succ z ih =>
    rw [List.replicate_succ, List.cons_append]
    simp [leadingOneCount, ih]

theorem leadingZero_decomp (b : List Nat) :
    b = List.replicate (leadingZeroCount b) 0 ++ b.drop (leadingZeroCount b) := by
  induction b with
  | nil => rfl
  | cons x bs ih =>
    by_cases hx : x = 0
    · subst hx
      rw [leadingZeroCount]
      simp only [if_pos rfl, List.replicate_succ, List.cons_append, List.drop_succ_cons]
      exact congrArg (0 :: ·) ih
    · simp [leadingZeroCount, hx]

theorem drop_leadingZero_head (b : List Nat) (hnz : ∃ x ∈ b, x ≠ 0) :
    ∃ hd tl, b.drop (leadingZeroCount b) = hd :: tl ∧ hd ≠ 0 := by
  induction b with
  | nil => simp at hnz
  | cons x bs ih =>
    by_cases hx : x = 0
    · subst hx
      rw [leadingZeroCount]
      simp only [if_pos rfl, List.drop_succ_cons]
      apply ih
      rcases hnz with ⟨y, hy, hy0⟩
      rcases List.mem_cons.mp hy with rfl | hy
      · exact absurd rfl hy0
      · exact ⟨y, hy, hy0⟩
    · refine ⟨x, bs, ?_, hx⟩
      simp [leadingZeroCount, hx]

theorem foldl_zeroPadded (c z : Nat) (l : List Nat) :
    (List.replicate z 0 ++ l).foldl (fun a x => c * a + x) 0 =
      l.foldl (fun a x => c * a + x) 0 := by
  induction z with
  | zero => rfl
  | succ z ih =>
    rw [List.replicate_succ, List.cons_append, List.foldl_cons]
    simpa using ih

/-- Decoding the canonical encoded string of `z` leading zeros and a
nonzero value `V` yields the `z` zero bytes followed by the big-endian
bytes of `V`. -/
theorem base58Decode_canonical (z V : Nat) (hV : V ≠ 0) :
    base58Decode (String.mk (List.replicate z '1' ++
        (Nat.digits 58 V).reverse.map alphaChar)) =
      some (List.replicate z 0 ++ (Nat.digits 256 V).reverse) := by
  have hdig : Nat.digits 58 V ≠ [] := Nat.digits_ne_nil_iff_ne_zero.mpr hV
  have hlt : ∀ d ∈ (Nat.digits 58 V).reverse, d < 58 := by
    intro d hd
    exact Nat.digits_lt_base (by norm_num) (List.mem_reverse.mp hd)
  unfold base58Decode
  have htl : (String.mk (List.replicate z '1' ++
      (Nat.digits 58 V).reverse.map alphaChar)).toList =
      List.replicate z '1' ++ (Nat.digits 58 V).reverse.map alphaChar := rfl
  rw [htl]
  rw [if_neg (by
    simp only [List.length_append, List.length_replicate, List.length_map,
      List.length_reverse]
    have := List.length_pos.mpr hdig
    omega)]
  rw [mapM_charVal_replicate_one, mapM_charVal_map_alphaChar _ hlt]
  simp only [Option.map_some']
  have hfold : (List.replicate z 0 ++ (Nat.digits 58 V).reverse).foldl
      (fun a x => 58 * a + x) 0 = V := by
    rw [foldl_zeroPadded, foldl_base_eq_ofDigits]
    simp [Nat.ofDigits_digits]
  have hbytes : (List.replicate z 0 ++ (Nat.digits 58 V).reverse).foldl decodeStep [0] =
      Nat.digits 256 V := by
    have h0 : ([0] : List Nat) = bytesRepr 0 := rfl
    rw [h0, foldl_decodeStep_bytesRepr, hfold, bytesRepr, if_neg hV]
  rw [hbytes]
  have hones : leadingOneCount (List.replicate z '1' ++
      (Nat.digits 58 V).reverse.map alphaChar) = z := by
    apply leadingOneCount_replicate_append
    rw [List.head?_map, List.head?_reverse, List.getLast?_eq_getLast _ hdig]
    intro hcon
    simp only [Option.map_some', Option.some.injEq] at hcon
    exact alphaChar_ne_one _
      (Nat.digits_lt_base (by norm_num) (List.getLast_mem hdig))
      (Nat.getLast_digit_ne_zero 58 hV) hcon
  rw [hones]
  rw [List.reverse_append, List.reverse_replicate]

/-- Encoding a byte array containing a nonzero byte produces one alphabet
character per leading zero byte followed by the base-58 digit characters of
the big-endian value, and that value is nonzero. -/
theorem base58Encode_canonical (b : List Nat) (hnz : ∃ x ∈ b, x ≠ 0) :
    b.foldl (fun a x => 256 * a + x) 0 ≠ 0 ∧
    base58Encode b = String.mk (List.replicate (leadingZeroCount b) '1' ++
      (Nat.digits 58 (b.foldl (fun a x => 256 * a + x) 0)).reverse.map alphaChar) := by
  obtain ⟨hd, tl, hdrop, hhd⟩ := drop_leadingZero_head b hnz
  have hdecomp := leadingZero_decomp b
  have hVfold : b.foldl (fun a x => 256 * a + x) 0 =
      (hd :: tl).foldl (fun a x => 256 * a + x) 0 := by
    conv_lhs => rw [hdecomp]
    rw [foldl_zeroPadded, hdrop]
  have hVne : b.foldl (fun a x => 256 * a + x) 0 ≠ 0 := by
    rw [hVfold, foldl_base_eq_ofDigits]
    simp only [Nat.zero_mul, Nat.add_zero, List.reverse_cons]
    rw [Nat.ofDigits_append]
    simp only [Nat.ofDigits_cons, Nat.ofDigits_nil]
    have hpow : 0 < (256 : ℕ) ^ tl.reverse.length := Nat.pos_pow_of_pos _ (by norm_num)
    intro hcon
    push_cast at hcon
    have hmul : 0 < 256 ^ tl.reverse.length * (hd + 0) :=
      Nat.mul_pos hpow (by omega)
    omega
  refine ⟨hVne, ?_⟩
  have hbne : b ≠ [] := by
    rintro rfl
    simp at hnz
  have hlen0 : ¬b.length = 0 := fun h => hbne (List.length_eq_zero.mp h)
  have hzlen : leadingZeroCount b ≤ b.length - 1 := by
    have hlenb := congrArg List.length hdecomp
    rw [List.length_append, List.length_replicate, hdrop, List.length_cons] at hlenb
    omega
  unfold base58Encode
  rw [if_neg hlen0]
  apply congrArg String.mk
  have h1 : base58EncodeDigits b =
      Nat.digits 58 (b.foldl (fun a x => 256 * a + x) 0) := by
    rw [base58EncodeDigits_eq, digitsRepr, if_neg hVne]
  have h2 : encodeZeroPad b = leadingZeroCount b := by
    unfold encodeZeroPad
    omega
  rw [h1, h2, List.reverse_append, List.reverse_replicate, List.map_append,
    List.map_replicate]
  rfl

/-- C10 counterexample: the decoder seeds its accumulator with one zero
byte and also appends one zero byte per leading alphabet-zero character, so
the single zero byte `[0]` encodes to a one-character string that decodes
to two zero bytes, not to `[0]`. -/
theorem claim_C10_counterexample :
    base58Decode (base58Encode [0]) = some [0, 0] ∧
      base58Decode (base58Encode [0]) ≠ some [0] := by
  decide

/-- C10 (amended): base58Decode inverts base58Encode on the empty array and
on every byte array that contains at least one nonzero byte; for nonempty
all-zero arrays the round trip appends one extra zero byte (see the
counterexample), so the identity claimed for all arrays with leading zero
bytes holds only when a nonzero byte follows. -/
theorem claim_C10_amended :
    base58Decode (base58Encode []) = some [] ∧
    ∀ b : List Nat, (∀ x ∈ b, x < 256) → (∃ x ∈ b, x ≠ 0) →
      base58Decode (base58Encode b) = some b := by
  refine ⟨rfl, fun b hb hnz => ?_⟩
  obtain ⟨hVne, henc⟩ := base58Encode_canonical b hnz
  obtain ⟨hd, tl, hdrop, hhd⟩ := drop_leadingZero_head b hnz
  rw [henc, base58Decode_canonical _ _ hVne]
  have hVval : b.foldl (fun a x => 256 * a + x) 0 =
      Nat.ofDigits 256 (hd :: tl).reverse := by
    conv_lhs => rw [leadingZero_decomp b]
    rw [foldl_zeroPadded, hdrop, foldl_base_eq_ofDigits]
    simp
  have hdig : Nat.digits 256 (b.foldl (fun a x => 256 * a + x) 0) =
      (hd :: tl).reverse := by
    rw [hVval]
    apply Nat.digits_ofDigits 256 (by norm_num)
    · intro d hdm
      apply hb
      rw [List.mem_reverse, ← hdrop] at hdm
      exact List.drop_subset _ b hdm
    · intro hne
      have hrev1 : (hd :: tl).reverse.getLast? = some hd := by
        rw [List.getLast?_reverse]
        rfl
      have hrev2 : (hd :: tl).reverse.getLast? =
          some ((hd :: tl).reverse.getLast hne) := List.getLast?_eq_getLast _ hne
      rw [hrev1] at hrev2
      rw [← Option.some.inj hrev2]
      exact hhd
  rw [hdig, List.reverse_reverse, ← hdrop]
  exact congrArg some (leadingZero_decomp b).symm

theorem claim_C10_witness :
    base58Decode (base58Encode [0, 255, 1]) = some [0, 255, 1] :=
  claim_C10_amended.2 [0, 255, 1] (by decide) (by decide)

end FlashArb
